import Mathlib

/-!
Verification of the compile-time checked formatter in `format.hpp`
(namespace `iso::format`).  The C++ code is shallowly embedded: the
compile-time scanner, the per-kind validity predicates and length bounds,
the per-kind render routines and the runtime render loop of
`Format::printf` become executable Lean functions on `List Char`
(the literal's character array, terminator included, as in
`sizeof(S::string)`).  Compile-time rejections (static_assert failures
and unsatisfiable specializations) are modelled by `Option`: a call that
would not compile returns `none`.

Machine integers: C++ `char` is modelled by `Char` (all relevant bytes are
ASCII), unsigned integral values by `Nat`, signed ones by `Int`; a value of
a `sizeof(T) = b` type is in `[0, 2^(8*b))` resp. `[-2^(8*b-1), 2^(8*b-1))`.
The target is a 32-bit embedded platform, so `sizeof(void *) = sizeof(size_t) = 4`.
Loops with a data-dependent trip count are written with an explicit fuel
argument equal to the loop bound that the C++ loop condition enforces, so
every definition reduces in the kernel.
-/

namespace iso.format

/-- The `Specifier` enumeration of `format.hpp` (values are the kind
characters; `Unknown = 0`). -/
inductive Specifier where
  | Unknown
  | SignedDecimalInteger
  | UnsignedDecimalInteger
  | UnsignedHexadecimalInteger
  | Character
  | StringOfCharacters
  | PointerAddress
  | Time
  | Boolean
deriving DecidableEq, Repr

/-- Underlying `char` value of each enumerator (`'d'`, `'u'`, ...,
`Unknown = 0`). -/
def specChar : Specifier → Char
  | .Unknown => Char.ofNat 0
  | .SignedDecimalInteger => 'd'
  | .UnsignedDecimalInteger => 'u'
  | .UnsignedHexadecimalInteger => 'X'
  | .Character => 'c'
  | .StringOfCharacters => 's'
  | .PointerAddress => 'p'
  | .Time => 't'
  | .Boolean => 'b'

/-- The `specifiers` array: the eight known kinds, in declaration order. -/
def specifiers : List Specifier :=
  [.SignedDecimalInteger, .UnsignedDecimalInteger, .UnsignedHexadecimalInteger,
   .Character, .StringOfCharacters, .PointerAddress, .Time, .Boolean]

/-- The linear search `for (const auto &s : specifiers) if (s == specInString) specifier = s;`
starting from `Specifier::Unknown`. -/
def lookupSpecifier (c : Char) : Specifier :=
  specifiers.foldl (fun acc sp => if specChar sp = c then sp else acc) Specifier.Unknown

/-- `SpecifierData`: kind, width, byte offset of the `%`, and the number of
literal bytes the specifier syntax occupies. -/
structure SpecifierData where
  specifier : Specifier
  width : Nat
  position : Nat
  size : Nat
deriving DecidableEq, Repr

/-- The `IsDigit` lambda of the scanner. -/
def IsDigit (c : Char) : Bool := decide ('0' ≤ c ∧ c ≤ '9')

/-- The digit-consuming inner `while` loop of the scanner
(`while (IsDigit(S::string[++i])) ...`), with fuel: each iteration advances
`i` by one and the loop stops at `s.length`, so `s.length - i` fuel is
exact.  Returns the accumulated width and the index of the first non-digit
character. -/
def scanWidthF (s : List Char) : Nat → Nat → Nat → Nat × Nat
  | 0, i, w => (w, i)
  | f + 1, i, w =>
    if h : i < s.length then
      let c := s.get ⟨i, h⟩
      if IsDigit c then
        if c = '0' ∧ w = 0 then scanWidthF s f (i + 1) w
        else scanWidthF s f (i + 1) (10 * w + (c.toNat - 48))
      else (w, i)
    else (w, i)

/-- Digit scan starting at index `i` with accumulator `w`. -/
def scanWidth (s : List Char) (i w : Nat) : Nat × Nat :=
  scanWidthF s (s.length - i) i w

/-- One step of the scanner's outer `for` loop, with fuel (the loop visits
strictly increasing indices below `s.length`).  At a `'%'` the digit run is
consumed, the following character is matched against the kind table and an
entry `{specifier, width, position, size}` is recorded; scanning resumes
after the kind character. -/
def scanAuxF (s : List Char) : Nat → Nat → List SpecifierData
  | 0, _ => []
  | f + 1, i =>
    if h : i < s.length then
      if s.get ⟨i, h⟩ = '%' then
        ⟨lookupSpecifier (s.getD (scanWidth s (i + 1) 0).2 (Char.ofNat 0)),
         (scanWidth s (i + 1) 0).1, i, (scanWidth s (i + 1) 0).2 - i + 1⟩
          :: scanAuxF s f ((scanWidth s (i + 1) 0).2 + 1)
      else scanAuxF s f (i + 1)
    else []

/-- The scanner: entries recorded by the single left-to-right scan of
`SpecifierTable::SpecifierTable`, starting at index `i`. -/
def scanAux (s : List Char) (i : Nat) : List SpecifierData :=
  scanAuxF s (s.length - i) i

/-- `SpecifierQuantity`: the number of `'%'` characters in the literal. -/
def specifierQuantity (s : List Char) : Nat :=
  s.countP (fun c => decide (c = '%'))

/-- The `SpecifierTable<N>` contents: the recorded entries followed by
default-initialised (`Unknown`, all zero) entries up to `N`, exactly as the
value-initialised `data[N]` array is left when fewer than `N` entries are
written. -/
def specifierTable (s : List Char) : List SpecifierData :=
  scanAux s 0 ++
    List.replicate (specifierQuantity s - (scanAux s 0).length) ⟨Specifier.Unknown, 0, 0, 0⟩

/-- The `checkWidth` lambda of `printf`: a nonzero width is allowed only on
the two decimal kinds. -/
def checkWidth (table : List SpecifierData) : Bool :=
  table.all fun d =>
    decide ((d.specifier = Specifier.SignedDecimalInteger ∨
             d.specifier = Specifier.UnsignedDecimalInteger) ∨ d.width = 0)

/-- `sizeof(void *)` and `sizeof(size_t)` on the 32-bit embedded target. -/
def pointerSize : Nat := 4

/-- A bound argument together with its C++ type shape: `sint b v` is a
signed integral of `sizeof = b`, `uint b v` an unsigned integral, `chr` a
`char`, `str lit` a compile-time `String` whose `Type::string` array
(terminator included) is `lit`, `ptr v` a pointer, `boolean` a `bool`. -/
inductive Arg where
  | sint (bytes : Nat) (v : Int)
  | uint (bytes : Nat) (v : Nat)
  | chr (c : Char)
  | str (lit : List Char)
  | ptr (v : Nat)
  | boolean (b : Bool)
deriving DecidableEq, Repr

/-- The `valid` member of each `SpecCheck` specialization: is the argument
type legal for the specifier kind?  The primary template (reached by
`Unknown`) has `valid = false`; mismatched (kind, type) pairs fail the
specialization's `static_assert`. -/
def valid (sp : Specifier) (a : Arg) : Bool :=
  match sp, a with
  | .SignedDecimalInteger, .sint _ _ => true
  | .UnsignedDecimalInteger, .uint _ _ => true
  | .UnsignedHexadecimalInteger, .uint _ _ => true
  | .Character, .chr _ => true
  | .StringOfCharacters, .str _ => true
  | .PointerAddress, .ptr _ => true
  | .Time, .uint b _ => decide (pointerSize ≤ b)
  | .Boolean, .str _ => false
  | .Boolean, _ => true
  | _, _ => false

/-- The `length` member of each `SpecCheck` specialization: the
compile-time maximum rendered length for the (kind, argument type) pair.
Note `Boolean` uses `sizeof("FALSE")`, which counts the terminator.  The
primary template has `length = 0`. -/
def specLength (sp : Specifier) (a : Arg) : Nat :=
  match sp, a with
  | .SignedDecimalInteger, .sint b _ => 3 * b - b / 2 + 1
  | .UnsignedDecimalInteger, .uint b _ => 3 * b - b / 2
  | .UnsignedHexadecimalInteger, .uint b _ => 2 * b + 2
  | .Character, .chr _ => 1
  | .StringOfCharacters, .str lit => lit.length - 1
  | .PointerAddress, .ptr _ => 2 * pointerSize + 2
  | .Time, .uint b _ => 3 * b - b / 2 + 4
  | .Boolean, _ => 6
  | _, _ => 0

/-- The `do { buffer[num++] = arg % 10 + '0'; } while (arg /= 10);` digit
loop, least significant digit first, with fuel (the quotient shrinks every
iteration, so `v + 1` fuel always suffices). -/
def digitsRevF : Nat → Nat → List Char
  | 0, _ => []
  | f + 1, v =>
    Char.ofNat (v % 10 + 48) :: (if v / 10 = 0 then [] else digitsRevF f (v / 10))

/-- Decimal digits of `v`, least significant first (at least one digit). -/
def digitsRev (v : Nat) : List Char := digitsRevF (v + 1) v

/-- `SpecCheck<UnsignedDecimalInteger>::formatArg`: digits least
significant first, zero padding up to the width, then the in-place
reversal. -/
def formatU (v w : Nat) : List Char :=
  (digitsRev v ++ List.replicate (w - (digitsRev v).length) '0').reverse

/-- `SpecCheck<SignedDecimalInteger>::formatArg`: absolute value digits,
zero padding, a `'-'` appended before the reversal when negative.  (For
`v = -2^(8b-1)` the C++ negation overflows, which is undefined; the model
uses the mathematical absolute value.) -/
def formatS (v : Int) (w : Nat) : List Char :=
  ((digitsRev (if v < 0 then -v else v).toNat ++
      List.replicate (w - (digitsRev (if v < 0 then -v else v).toNat).length) '0') ++
    (if v < 0 then ['-'] else [])).reverse

/-- `val < 0xA ? val + '0' : val + ('A' - 0xA)`. -/
def hexChar (val : Nat) : Char :=
  if val < 10 then Char.ofNat (val + 48) else Char.ofNat (val + 55)

/-- `SpecCheck<UnsignedHexadecimalInteger>::formatArg` for a type of
`sizeof = bytes`: the `0x` prefix followed by one character per nibble,
`buffer[i] = (arg >> (8*sizeof(Type) - (i-1)*4)) & 0xF` for
`i = 2, ..., 2*sizeof+1`. -/
def formatHex (bytes v : Nat) : List Char :=
  '0' :: 'x' ::
    (List.range (2 * bytes)).map fun k => hexChar ((v >>> (8 * bytes - (k + 1) * 4)) % 16)

/-- `SpecCheck<Time>::formatArg`: unpadded seconds, `'.'`, milliseconds
with width forced to 3. -/
def formatTime (v : Nat) : List Char :=
  formatU (v / 1000) 0 ++ '.' :: formatU (v % 1000) 3

/-- `const bool cond = (arg) ? 1 : 0;` — C++ truthiness of each argument
shape (`String` is not convertible to `bool`, so that case is rejected by
`valid` and never rendered). -/
def truthy : Arg → Bool
  | .sint _ v => decide (v ≠ 0)
  | .uint _ v => decide (v ≠ 0)
  | .chr c => decide (c.toNat ≠ 0)
  | .str _ => false
  | .ptr v => decide (v ≠ 0)
  | .boolean b => b

/-- Dispatch of `SpecCheck<sp, Type>::formatArg(buffer, arg, Width<w>)`:
the bytes the routine writes at the result cursor (its return value is the
length of this list).  Pairs with `valid = false` do not compile in C++;
they return `[]` here and are unreachable behind the `valid` guard. -/
def formatArg (sp : Specifier) (a : Arg) (w : Nat) : List Char :=
  match sp, a with
  | .SignedDecimalInteger, .sint _ v => formatS v w
  | .UnsignedDecimalInteger, .uint _ v => formatU v w
  | .UnsignedHexadecimalInteger, .uint b v => formatHex b v
  | .Character, .chr c => [c]
  | .StringOfCharacters, .str lit => lit.dropLast
  | .PointerAddress, .ptr v => formatHex pointerSize v
  | .Time, .uint _ v => formatTime v
  | .Boolean, a => if truthy a then ['T', 'R', 'U', 'E'] else ['F', 'A', 'L', 'S', 'E']
  | _, _ => []

/-- `while (counter < target) buffer[result++] = s[counter++];` — the copy
loop of the render lambda: the characters copied and the final source
counter.  Fuel `t - i` is exactly the trip count. -/
def copyN (s : List Char) : Nat → Nat → List Char
  | _, 0 => []
  | i, n + 1 => s.getD i (Char.ofNat 0) :: copyN s (i + 1) n

/-- The copy loop from source index `i` up to `t`: copied characters and
the source counter afterwards (`max i t`). -/
def copyWhile (s : List Char) (i t : Nat) : List Char × Nat :=
  (copyN s i (t - i), max i t)

/-- The recursive `parse` lambda of `printf`: for each (entry, argument)
pair, copy the literal up to the entry's position, render the argument,
advance the source counter by the entry's size; after the last pair copy
the rest of the literal (terminator included).  Returns the buffer
contents; `counterResult` is its length. -/
def parseLoop (s : List Char) : List (SpecifierData × Arg) → Nat → List Char
  | [], _ => []
  | [(e, a)], cs =>
    (copyWhile s cs e.position).1 ++ formatArg e.specifier a e.width ++
      (copyWhile s ((copyWhile s cs e.position).2 + e.size) s.length).1
  | (e, a) :: rest, cs =>
    (copyWhile s cs e.position).1 ++ formatArg e.specifier a e.width ++
      parseLoop s rest ((copyWhile s cs e.position).2 + e.size)

/-- `Format::printf`.  With no arguments, overload resolution picks the
unvalidated fast path that emits the whole literal array and returns
`sizeof(S::string)`.  Otherwise the three compile-time checks (arity,
width placement, per-pair type validity) gate the render loop; `none`
means the call does not compile.  The returned list is the buffer handed
to `puts`; its length is the returned byte count. -/
def printf (s : List Char) (args : List Arg) : Option (List Char) :=
  match args with
  | [] => some s
  | _ :: _ =>
    if args.length = specifierQuantity s then
      if checkWidth (specifierTable s) then
        if ((specifierTable s).zip args).all (fun p => valid p.1.specifier p.2) then
          some (parseLoop s ((specifierTable s).zip args) 0)
        else none
      else none
    else none

/-- The compile-time buffer capacity:
`CheckSpecsTypes<table>(Args{}...) + sizeof(S::string)` — the sum of the
per-entry `SpecCheck::length` bounds plus the literal byte count. -/
def bufferCapacity (s : List Char) (args : List Arg) : Nat :=
  (((specifierTable s).zip args).map fun p => specLength p.1.specifier p.2).sum + s.length

/-- The `DataBuffer` dump argument: `data = none` models a null data
pointer; `length` is the separately supplied byte count. -/
structure DataBuffer where
  data : Option (List Nat)
  length : Nat

/-- One `" XX"` hex group of the dump loop (`char` is unsigned on the
embedded target, so a byte is in `[0, 256)`). -/
def hexGroup (b : Nat) : List Char :=
  [' ', hexChar (b >>> 4), hexChar (b % 16)]

/-- The `DataBuffer` overload of `printf`: result is the returned byte
count together with the sequence of `puts` sink invocations (the rendered
buffer from the inner `printf`, one group per byte, then `"\r\n"`).  A
null data pointer is checked first and short-circuits to zero bytes and no
sink call.  `none` again means the call does not compile. -/
def printfDump (s : List Char) (db : DataBuffer) (args : List Arg) :
    Option (Nat × List (List Char)) :=
  match printf s args with
  | none => none
  | some buf =>
    match db.data with
    | none => some (0, [])
    | some bytes =>
      some (3 * db.length + buf.length + 2,
        buf :: ((List.range db.length).map fun i => hexGroup (bytes.getD i 0)) ++
          [[Char.ofNat 13, Char.ofNat 10]])

/-- Declarative renderer, modelled from the spec's Renderer contract
(§4.4): for each table entry in order, the literal bytes from the source
cursor up to the entry's position, then the kind-specific rendering of the
positional argument, the cursor advancing by the entry's encoded size;
after the last entry all remaining literal bytes.  Refinement target for
the render loop. -/
def renderDecl (s : List Char) : List (SpecifierData × Arg) → Nat → List Char
  | [], cur => s.drop cur
  | (e, a) :: rest, cur =>
    (s.take e.position).drop cur ++ formatArg e.specifier a e.width ++
      renderDecl s rest (e.position + e.size)

/-- Well-formedness of a run of table entries relative to a source cursor:
each entry starts at or after the cursor, lies inside the literal, and the
next entry starts at or after the end of its span.  The scanner establishes
this for the entries it records. -/
def EntriesOK (s : List Char) : Nat → List SpecifierData → Prop
  | _, [] => True
  | cur, e :: es =>
    cur ≤ e.position ∧ e.position ≤ s.length ∧ EntriesOK s (e.position + e.size) es

/-! ### Scanner lemmas -/

/-- The digit loop computes the usual decimal value of the maximal digit
run at `i` (the leading-zero skip is value-preserving) and stops right
after it. -/
lemma scanWidthF_eq_foldl (s : List Char) :
    ∀ f i w, s.length - i ≤ f →
      scanWidthF s f i w =
        (((s.drop i).takeWhile IsDigit).foldl (fun a c => 10 * a + (c.toNat - 48)) w,
         i + ((s.drop i).takeWhile IsDigit).length) := by
  intro f
  induction f with
  | zero =>
    intro i w hf
    have hdrop : s.drop i = [] := List.drop_eq_nil_of_le (by omega)
    simp [scanWidthF, hdrop]
  | succ f ih =>
    intro i w hf
    by_cases h : i < s.length
    · have hdrop : s.drop i = s[i] :: s.drop (i + 1) := List.drop_eq_getElem_cons h
      rw [hdrop]
      by_cases hd : IsDigit s[i]
      · rw [List.takeWhile_cons_of_pos hd]
        by_cases hz : s[i] = '0' ∧ w = 0
        · have hw0 : 10 * w + (s[i].toNat - 48) = w := by
            rcases hz with ⟨hz1, hz2⟩
            subst hz2
            rw [hz1]
            decide
          simp only [scanWidthF, dif_pos h, List.get_eq_getElem, if_pos hd, if_pos hz]
          rw [ih (i + 1) w (by omega)]
          rw [List.foldl_cons, hw0]
          simp only [Prod.mk.injEq, List.length_cons]
          exact ⟨trivial, by omega⟩
        · simp only [scanWidthF, dif_pos h, List.get_eq_getElem, if_pos hd, if_neg hz]
          rw [ih (i + 1) (10 * w + (s[i].toNat - 48)) (by omega)]
          rw [List.foldl_cons]
          simp only [Prod.mk.injEq, List.length_cons]
          exact ⟨trivial, by omega⟩
      · rw [List.takeWhile_cons_of_neg hd]
        simp [scanWidthF, dif_pos h, hd]
    · have hdrop : s.drop i = [] := List.drop_eq_nil_of_le (by omega)
      simp [scanWidthF, h, hdrop]

/-- Closed form of `scanWidth`. -/
lemma scanWidth_eq (s : List Char) (i w : Nat) :
    scanWidth s i w =
      (((s.drop i).takeWhile IsDigit).foldl (fun a c => 10 * a + (c.toNat - 48)) w,
       i + ((s.drop i).takeWhile IsDigit).length) :=
  scanWidthF_eq_foldl s (s.length - i) i w le_rfl

/-- The index returned by the digit loop never runs past the literal. -/
lemma scanWidth_snd_le (s : List Char) (i w : Nat) (h : i ≤ s.length) :
    (scanWidth s i w).2 ≤ s.length := by
  rw [scanWidth_eq]
  have hle := (List.takeWhile_prefix (l := s.drop i) IsDigit).length_le
  simp only [List.length_drop] at hle
  simp only
  omega

/-- The index returned by the digit loop does not move backwards. -/
lemma scanWidth_snd_ge (s : List Char) (i w : Nat) : i ≤ (scanWidth s i w).2 := by
  rw [scanWidth_eq]
  simp only
  omega

/-- Out of fuel or out of the literal: no more entries. -/
lemma scanAuxF_of_le (s : List Char) (f i : Nat) (h : s.length ≤ i) :
    scanAuxF s f i = [] := by
  cases f with
  | zero => rfl
  | succ f => simp [scanAuxF, Nat.not_lt.mpr h]

/-- Any fuel at least the remaining length gives the same scan. -/
lemma scanAuxF_congr (s : List Char) :
    ∀ f g i, s.length - i ≤ f → s.length - i ≤ g → scanAuxF s f i = scanAuxF s g i := by
  intro f
  induction f with
  | zero =>
    intro g i hf hg
    rw [scanAuxF_of_le s 0 i (by omega), scanAuxF_of_le s g i (by omega)]
  | succ f ih =>
    intro g i hf hg
    by_cases h : i < s.length
    · cases g with
      | zero => omega
      | succ g =>
        simp only [scanAuxF, dif_pos h]
        have hj := scanWidth_snd_ge s (i + 1) 0
        by_cases hp : s.get ⟨i, h⟩ = '%'
        · rw [if_pos hp, if_pos hp, ih g ((scanWidth s (i + 1) 0).2 + 1) (by omega) (by omega)]
        · rw [if_neg hp, if_neg hp, ih g (i + 1) (by omega) (by omega)]
    · rw [scanAuxF_of_le s _ i (by omega), scanAuxF_of_le s g i (by omega)]

/-- Scanner equation: past the end of the literal. -/
lemma scanAux_nil (s : List Char) (i : Nat) (h : s.length ≤ i) : scanAux s i = [] :=
  scanAuxF_of_le s _ i h

/-- Scanner equation: at a `'%'` an entry is recorded and scanning resumes
after the kind character. -/
lemma scanAux_pct (s : List Char) (i : Nat) (h : i < s.length) (hp : s[i] = '%') :
    scanAux s i =
      ⟨lookupSpecifier (s.getD (scanWidth s (i + 1) 0).2 (Char.ofNat 0)),
       (scanWidth s (i + 1) 0).1, i, (scanWidth s (i + 1) 0).2 - i + 1⟩
        :: scanAux s ((scanWidth s (i + 1) 0).2 + 1) := by
  have hf : s.length - i = (s.length - i - 1) + 1 := by omega
  rw [scanAux, hf]
  have hp2 : s.get ⟨i, h⟩ = '%' := by simpa using hp
  simp only [scanAuxF, dif_pos h, if_pos hp2]
  have hj := scanWidth_snd_ge s (i + 1) 0
  rw [scanAuxF_congr s (s.length - i - 1) (s.length - ((scanWidth s (i + 1) 0).2 + 1))
    ((scanWidth s (i + 1) 0).2 + 1) (by omega) le_rfl]
  rfl

/-- Scanner equation: any other character is skipped. -/
lemma scanAux_other (s : List Char) (i : Nat) (h : i < s.length) (hp : s[i] ≠ '%') :
    scanAux s i = scanAux s (i + 1) := by
  have hf : s.length - i = (s.length - i - 1) + 1 := by omega
  rw [scanAux, hf]
  have hp2 : ¬ s.get ⟨i, h⟩ = '%' := by simpa using hp
  simp only [scanAuxF, dif_pos h, if_neg hp2]
  rw [scanAuxF_congr s (s.length - i - 1) (s.length - (i + 1)) (i + 1) (by omega) le_rfl]
  rfl

/-- Monotonicity of `EntriesOK` in the cursor. -/
lemma EntriesOK_mono (s : List Char) (es : List SpecifierData) :
    ∀ c d, d ≤ c → EntriesOK s c es → EntriesOK s d es := by
  cases es with
  | nil => intro c d _ _; trivial
  | cons e es =>
    intro c d hdc hc
    exact ⟨le_trans hdc hc.1, hc.2.1, hc.2.2⟩

/-- Invariants of the scan from index `i`: the recorded entries are well
placed (`EntriesOK`), there are at most as many of them as remaining `'%'`
characters, and each entry starts at a `'%'` it scanned, spans at least
`"%k"`, and carries the kind looked up from the character that ends its
span. -/
lemma scanAux_facts (s : List Char) (i : Nat) :
    EntriesOK s i (scanAux s i) ∧
      (scanAux s i).length ≤ List.countP (fun c => decide (c = '%')) (s.drop i) ∧
      ∀ e ∈ scanAux s i,
        i ≤ e.position ∧ e.position < s.length ∧ 2 ≤ e.size ∧
          e.specifier = lookupSpecifier (s.getD (e.position + e.size - 1) (Char.ofNat 0)) := by
  have key : ∀ n i, s.length - i ≤ n →
      EntriesOK s i (scanAux s i) ∧
        (scanAux s i).length ≤ List.countP (fun c => decide (c = '%')) (s.drop i) ∧
        ∀ e ∈ scanAux s i,
          i ≤ e.position ∧ e.position < s.length ∧ 2 ≤ e.size ∧
            e.specifier = lookupSpecifier (s.getD (e.position + e.size - 1) (Char.ofNat 0)) := by
    intro n
    induction n with
    | zero =>
      intro i hi
      rw [scanAux_nil s i (by omega)]
      refine ⟨trivial, by simp, by simp⟩
    | succ n ih =>
      intro i hi
      by_cases h : i < s.length
      · have hdrop : s.drop i = s[i] :: s.drop (i + 1) := List.drop_eq_getElem_cons h
        by_cases hp : s[i] = '%'
        · have heq := scanAux_pct s i h hp
          have hj1 := scanWidth_snd_ge s (i + 1) 0
          have hj2 := scanWidth_snd_le s (i + 1) 0 (by omega)
          obtain ⟨IH1, IH2, IH3⟩ := ih ((scanWidth s (i + 1) 0).2 + 1) (by omega)
          rw [heq]
          refine ⟨⟨le_refl i, le_of_lt h, ?_⟩, ?_, ?_⟩
          · have harith : i + ((scanWidth s (i + 1) 0).2 - i + 1) =
                (scanWidth s (i + 1) 0).2 + 1 := by omega
            rw [harith]
            exact IH1
          · have hcount : List.countP (fun c => decide (c = '%')) (s.drop i) =
                List.countP (fun c => decide (c = '%')) (s.drop (i + 1)) + 1 := by
              rw [hdrop, List.countP_cons]
              simp [hp]
            have hmono : List.countP (fun c => decide (c = '%'))
                  (s.drop ((scanWidth s (i + 1) 0).2 + 1)) ≤
                List.countP (fun c => decide (c = '%')) (s.drop (i + 1)) := by
              have hdd : s.drop ((scanWidth s (i + 1) 0).2 + 1) =
                  (s.drop (i + 1)).drop ((scanWidth s (i + 1) 0).2 - i) := by
                rw [List.drop_drop]
                congr 1
                omega
              rw [hdd]
              exact (List.drop_sublist _ _).countP_le _
            simp only [List.length_cons]
            omega
          · intro e he
            rcases List.mem_cons.mp he with he | he
            · subst he
              refine ⟨le_refl i, h, ?_, ?_⟩
              · show 2 ≤ (scanWidth s (i + 1) 0).2 - i + 1
                omega
              · show lookupSpecifier (s.getD (scanWidth s (i + 1) 0).2 (Char.ofNat 0)) =
                  lookupSpecifier
                    (s.getD (i + ((scanWidth s (i + 1) 0).2 - i + 1) - 1) (Char.ofNat 0))
                have harith2 : i + ((scanWidth s (i + 1) 0).2 - i + 1) - 1 =
                    (scanWidth s (i + 1) 0).2 := by omega
                rw [harith2]
            · obtain ⟨h1, h2, h3, h4⟩ := IH3 e he
              exact ⟨by omega, h2, h3, h4⟩
        · rw [scanAux_other s i h hp]
          obtain ⟨IH1, IH2, IH3⟩ := ih (i + 1) (by omega)
          refine ⟨EntriesOK_mono s _ (i + 1) i (by omega) IH1, ?_, ?_⟩
          · have hcount : List.countP (fun c => decide (c = '%')) (s.drop (i + 1)) ≤
                List.countP (fun c => decide (c = '%')) (s.drop i) := by
              rw [hdrop, List.countP_cons]
              omega
            omega
          · intro e he
            obtain ⟨h1, h2, h3, h4⟩ := IH3 e he
            exact ⟨by omega, h2, h3, h4⟩
      · rw [scanAux_nil s i (by omega)]
        refine ⟨trivial, by simp, by simp⟩
  exact key (s.length - i) i le_rfl

/-! ### Render-loop lemmas -/

/-- The copy loop writes exactly the literal slice `[i, i+n)`. -/
lemma copyN_eq (s : List Char) :
    ∀ n i, i + n ≤ s.length → copyN s i n = (s.take (i + n)).drop i := by
  intro n
  induction n with
  | zero =>
    intro i hi
    have : (s.take (i + 0)).drop i = [] := by
      apply List.drop_eq_nil_of_le
      simp
    rw [this]
    rfl
  | succ n ih =>
    intro i hi
    have hlen : i < (s.take (i + (n + 1))).length := by
      simp
      omega
    have hcons : (s.take (i + (n + 1))).drop i =
        (s.take (i + (n + 1)))[i] :: (s.take (i + (n + 1))).drop (i + 1) :=
      List.drop_eq_getElem_cons hlen
    have htake : (s.take (i + (n + 1))).drop (i + 1) = (s.take (i + 1 + n)).drop (i + 1) := by
      congr 2
      omega
    rw [hcons, htake, ← ih (i + 1) (by omega)]
    show s.getD i (Char.ofNat 0) :: copyN s (i + 1) n = _
    congr 1
    rw [List.getD_eq_getElem s (Char.ofNat 0) (by omega)]
    exact (List.getElem_take s).symm

/-- The copy loop up to `t` yields the slice `[i, t)` of the literal. -/
lemma copyWhile_fst (s : List Char) (i t : Nat) (ht : t ≤ s.length) :
    (copyWhile s i t).1 = (s.take t).drop i := by
  show copyN s i (t - i) = _
  by_cases hit : i ≤ t
  · have : i + (t - i) = t := by omega
    rw [copyN_eq s (t - i) i (by omega), this]
  · have h1 : t - i = 0 := by omega
    have h2 : (s.take t).drop i = [] := by
      apply List.drop_eq_nil_of_le
      simp
      omega
    rw [h1, h2]
    rfl

/-- After the copy loop the source counter sits at `max i t`. -/
lemma copyWhile_snd (s : List Char) (i t : Nat) : (copyWhile s i t).2 = max i t := rfl

/-- The render loop of `printf` agrees with the declarative renderer of the
spec whenever the entries are well placed relative to the cursor. -/
lemma parseLoop_eq_renderDecl (s : List Char) :
    ∀ ps cur, ps ≠ [] → EntriesOK s cur (ps.map Prod.fst) →
      parseLoop s ps cur = renderDecl s ps cur := by
  intro ps
  induction ps with
  | nil => intro cur hne; exact absurd rfl hne
  | cons p rest ih =>
    obtain ⟨e, a⟩ := p
    intro cur _ hok
    obtain ⟨hc, hl, hrest⟩ := hok
    have hc2 : cur ≤ e.position := hc
    have hl2 : e.position ≤ s.length := hl
    have hrest2 : EntriesOK s (e.position + e.size) (rest.map Prod.fst) := hrest
    have hmax : (copyWhile s cur e.position).2 = e.position := by
      rw [copyWhile_snd]
      omega
    cases rest with
    | nil =>
      show (copyWhile s cur e.position).1 ++ formatArg e.specifier a e.width ++
          (copyWhile s ((copyWhile s cur e.position).2 + e.size) s.length).1 = _
      rw [hmax, copyWhile_fst s cur e.position hl2, copyWhile_fst s _ s.length le_rfl,
        List.take_length]
      rfl
    | cons r rs =>
      show (copyWhile s cur e.position).1 ++ formatArg e.specifier a e.width ++
          parseLoop s (r :: rs) ((copyWhile s cur e.position).2 + e.size) = _
      rw [hmax, copyWhile_fst s cur e.position hl2,
        ih (e.position + e.size) (by simp) hrest2]
      rfl

/-- The primary `SpecCheck` template: no argument type is valid for an
`Unknown` specifier. -/
lemma valid_unknown (a : Arg) : valid Specifier.Unknown a = false := by
  cases a <;> rfl

/-- If the arity check passes and every zipped pair is valid, the table has
no default-initialised padding: every `'%'` produced a recorded entry. -/
lemma specifierTable_eq_scanAux (s : List Char) (args : List Arg)
    (hq : args.length = specifierQuantity s)
    (hv : ((specifierTable s).zip args).all (fun p => valid p.1.specifier p.2) = true) :
    specifierTable s = scanAux s 0 ∧ (specifierTable s).length = specifierQuantity s := by
  have hlen : (scanAux s 0).length ≤ specifierQuantity s := by
    have := (scanAux_facts s 0).2.1
    simpa [specifierQuantity] using this
  by_cases hk : specifierQuantity s - (scanAux s 0).length = 0
  · have hrecs : (scanAux s 0).length = specifierQuantity s := by omega
    constructor
    · simp only [specifierTable, hk]
      simp
    · simp only [specifierTable, hk]
      simp [hrecs]
  · exfalso
    have hm : (scanAux s 0).length < specifierQuantity s := by omega
    have htl : (specifierTable s).length = specifierQuantity s := by
      simp only [specifierTable, List.length_append, List.length_replicate]
      omega
    have hargslen : (scanAux s 0).length < args.length := by omega
    have hmem : (⟨Specifier.Unknown, 0, 0, 0⟩, args[(scanAux s 0).length]) ∈
        (specifierTable s).zip args := by
      rw [List.mem_iff_getElem]
      refine ⟨(scanAux s 0).length, ?_, ?_⟩
      · rw [List.length_zip]
        simp only [lt_inf_iff]
        omega
      · rw [List.getElem_zip]
        congr 1
        have hidx : (scanAux s 0).length < (specifierTable s).length := by omega
        simp only [specifierTable]
        rw [List.getElem_append_right (le_refl (scanAux s 0).length)]
        simp
    have := (List.all_eq_true.mp hv) _ hmem
    rw [valid_unknown] at this
    exact absurd this (by simp)

/-- Structure of a successful `printf` call with at least one argument: all
three compile-time checks passed and the result is the render loop's
output, which agrees with the declarative renderer. -/
lemma printf_cons_eq (s : List Char) (a : Arg) (args : List Arg) (buf : List Char)
    (h : printf s (a :: args) = some buf) :
    (a :: args).length = specifierQuantity s ∧
      checkWidth (specifierTable s) = true ∧
      ((specifierTable s).zip (a :: args)).all (fun p => valid p.1.specifier p.2) = true ∧
      buf = parseLoop s ((specifierTable s).zip (a :: args)) 0 := by
  simp only [printf] at h
  split_ifs at h with h1 h2 h3
  exact ⟨h1, h2, h3, (Option.some_inj.mp h).symm⟩

/-- Every successful `printf` call renders exactly the declarative
concatenation of literal spans and per-argument renderings. -/
lemma printf_eq_renderDecl (s : List Char) (args : List Arg) (buf : List Char)
    (h : printf s args = some buf) :
    buf = renderDecl s ((specifierTable s).zip args) 0 := by
  cases args with
  | nil =>
    have hbuf : s = buf := by simpa [printf] using h
    rw [← hbuf]
    show s = renderDecl s ((specifierTable s).zip []) 0
    rw [List.zip_nil_right]
    rfl
  | cons a args =>
    obtain ⟨h1, _, h3, h4⟩ := printf_cons_eq s a args buf h
    have htab := specifierTable_eq_scanAux s (a :: args) h1 h3
    have hne : (specifierTable s).zip (a :: args) ≠ [] := by
      have : ((specifierTable s).zip (a :: args)).length = (a :: args).length := by
        rw [List.length_zip, htab.2, ← h1]
        simp
      intro hcon
      rw [hcon] at this
      simp at this
    have hfst : ((specifierTable s).zip (a :: args)).map Prod.fst = specifierTable s :=
      List.map_fst_zip _ _ (by rw [htab.2, ← h1])
    have hok : EntriesOK s 0 (((specifierTable s).zip (a :: args)).map Prod.fst) := by
      rw [hfst, htab.1]
      exact (scanAux_facts s 0).1
    rw [h4, parseLoop_eq_renderDecl s _ 0 hne hok]

/-! ### Decimal digit lemmas -/

/-- Any two sufficient fuels give the same digit list. -/
lemma digitsRevF_congr : ∀ f g v, v < f → v < g → digitsRevF f v = digitsRevF g v := by
  intro f
  induction f with
  | zero => intro g v hf; omega
  | succ f ih =>
    intro g v hf hg
    cases g with
    | zero => omega
    | succ g =>
      simp only [digitsRevF]
      by_cases hz : v / 10 = 0
      · rw [if_pos hz, if_pos hz]
      · rw [if_neg hz, if_neg hz, ih g (v / 10) (by omega) (by omega)]

/-- Recursion equation of the digit loop. -/
lemma digitsRev_unfold (v : Nat) :
    digitsRev v =
      Char.ofNat (v % 10 + 48) :: (if v / 10 = 0 then [] else digitsRev (v / 10)) := by
  show digitsRevF (v + 1) v = _
  simp only [digitsRevF]
  by_cases hz : v / 10 = 0
  · rw [if_pos hz, if_pos hz]
  · rw [if_neg hz, if_neg hz, digitsRevF_congr v (v / 10 + 1) (v / 10) (by omega) (by omega)]
    rfl

/-- The digit loop always emits at least one character. -/
lemma digitsRev_ne_nil (v : Nat) : digitsRev v ≠ [] := by
  rw [digitsRev_unfold]
  simp

/-- A value below `10^k` has at most `k` decimal digits. -/
lemma digitsRev_length_le (k : Nat) (hk : 1 ≤ k) :
    ∀ v, v < 10 ^ k → (digitsRev v).length ≤ k := by
  induction k with
  | zero => omega
  | succ k ih =>
    intro v hv
    rw [digitsRev_unfold]
    by_cases hz : v / 10 = 0
    · rw [if_pos hz]
      simp
    · rw [if_neg hz]
      have hk1 : 1 ≤ k := by
        by_contra hcon
        have hk0 : k = 0 := by omega
        rw [hk0] at hv
        simp at hv
        omega
      have hv10 : v / 10 < 10 ^ k := by
        rw [Nat.div_lt_iff_lt_mul (by omega)]
        calc v < 10 ^ (k + 1) := hv
        _ = 10 ^ k * 10 := by ring
      have := ih hk1 (v / 10) hv10
      simp only [List.length_cons]
      omega

/-- Padding law of the unsigned decimal routine: the rendered digits are
the natural digits preceded by exactly the zeroes missing up to the
width. -/
lemma formatU_pad (v w : Nat) :
    formatU v w = List.replicate (w - (formatU v 0).length) '0' ++ formatU v 0 := by
  have h0 : formatU v 0 = (digitsRev v).reverse := by
    show (digitsRev v ++ List.replicate (0 - (digitsRev v).length) '0').reverse = _
    simp
  rw [h0]
  show (digitsRev v ++ List.replicate (w - (digitsRev v).length) '0').reverse = _
  rw [List.reverse_append, List.reverse_replicate]
  simp

/-- Length of the unsigned decimal rendering: natural digit count padded up
to the width. -/
lemma formatU_length (v w : Nat) :
    (formatU v w).length = max (digitsRev v).length w := by
  show (digitsRev v ++ List.replicate (w - (digitsRev v).length) '0').reverse.length = _
  simp
  omega

/-! ### Last-byte lemmas for the terminator claim -/

/-- Dropping an in-range prefix does not change the last element. -/
lemma getLast_drop (s : List Char) (cur : Nat) (h : cur < s.length) :
    (s.drop cur).getLast? = s.getLast? := by
  rw [List.getLast?_eq_getElem?, List.getLast?_eq_getElem?, List.getElem?_drop]
  congr 1
  simp only [List.length_drop]
  omega

/-- The declarative renderer ends with the tail of the literal, so it has
the literal's last byte whenever every entry span ends strictly inside the
literal. -/
lemma renderDecl_getLast (s : List Char) :
    ∀ ps cur, cur < s.length →
      (∀ p ∈ ps, p.1.position + p.1.size < s.length) →
      (renderDecl s ps cur).getLast? = s.getLast? := by
  intro ps
  induction ps with
  | nil =>
    intro cur hc _
    exact getLast_drop s cur hc
  | cons p rest ih =>
    obtain ⟨e, a⟩ := p
    intro cur hc hall
    have hhead : e.position + e.size < s.length := by
      have := hall (e, a) (List.mem_cons_self _ _)
      exact this
    have hrec : (renderDecl s rest (e.position + e.size)).getLast? = s.getLast? :=
      ih (e.position + e.size) hhead (fun q hq => hall q (List.mem_cons_of_mem _ hq))
    obtain ⟨c, hcl⟩ : ∃ c, s.getLast? = some c := by
      cases hs : s.getLast? with
      | none =>
        rw [List.getLast?_eq_getElem?] at hs
        simp at hs
        omega
      | some c => exact ⟨c, rfl⟩
    show (((s.take e.position).drop cur ++ formatArg e.specifier a e.width) ++
        renderDecl s rest (e.position + e.size)).getLast? = s.getLast?
    rw [List.getLast?_append, hrec, hcl]
    rfl

/-! ### Hexadecimal rendering lemmas -/

/-- The hex routine always emits exactly `2*sizeof + 2` characters. -/
lemma formatHex_length (b v : Nat) : (formatHex b v).length = 2 * b + 2 := by
  simp [formatHex]

/-- Nibble `k` (most significant first) of the hex rendering is digit `k`
of the base-16 expansion. -/
lemma formatHex_digit (b v k : Nat) (hk : k < 2 * b) :
    (formatHex b v).getD (2 + k) (Char.ofNat 0) =
      hexChar (v / 16 ^ (2 * b - 1 - k) % 16) := by
  have hlen : k < ((List.range (2 * b)).map
      fun k => hexChar ((v >>> (8 * b - (k + 1) * 4)) % 16)).length := by
    simp [hk]
  simp only [formatHex]
  rw [show 2 + k = (k + 1) + 1 from by omega, List.getD_cons_succ, List.getD_cons_succ]
  rw [List.getD_eq_getElem _ _ hlen, List.getElem_map, List.getElem_range]
  congr 2
  rw [Nat.shiftRight_eq_div_pow]
  congr 1
  have h4 : 8 * b - (k + 1) * 4 = 4 * (2 * b - 1 - k) := by omega
  rw [h4, pow_mul]
  norm_num

/-- The hex routine only reads the low `8*sizeof` bits: the C++ truncation
of the argument to its type width is invisible to the rendering. -/
lemma formatHex_trunc (b v : Nat) : formatHex b v = formatHex b (v % 2 ^ (8 * b)) := by
  show ('0' : Char) :: 'x' :: _ = ('0' : Char) :: 'x' :: _
  congr 1
  congr 1
  apply List.map_congr_left
  intro k hkmem
  have hk : k < 2 * b := List.mem_range.mp hkmem
  rw [Nat.shiftRight_eq_div_pow, Nat.shiftRight_eq_div_pow]
  congr 1
  have hsplit : (2 : ℕ) ^ (8 * b) =
      2 ^ (8 * b - (k + 1) * 4) * 2 ^ ((k + 1) * 4) := by
    rw [← pow_add]
    congr 1
    omega
  have hdvd : (16 : ℕ) ∣ 2 ^ ((k + 1) * 4) := by
    have h1 : (2 : ℕ) ^ ((k + 1) * 4) = 16 ^ (k + 1) := by
      rw [mul_comm, pow_mul]
      norm_num
    rw [h1]
    exact dvd_pow_self 16 (by omega)
  rw [hsplit, Nat.mod_mul_right_div_self, Nat.mod_mod_of_dvd _ hdvd]

/-! ### Claim theorems -/

/-- Claim C1 (evaluation at the failing input): the claimed bound
fails.  The call `printf("%08u", (uint8_t)0)` passes the width-constraint
check, yet writes 9 bytes (returning 9) while the compile-time buffer
capacity is only 3 + 5 = 8 — the planner's per-specifier bound ignores
the requested width, so the rendering overruns the stack buffer. -/
theorem c1_width_overflow_eval :
    (printf ['%', '0', '8', 'u', Char.ofNat 0] [Arg.uint 1 0]).map List.length = some 9 ∧
      bufferCapacity ['%', '0', '8', 'u', Char.ofNat 0] [Arg.uint 1 0] = 8 ∧
      checkWidth (specifierTable ['%', '0', '8', 'u', Char.ofNat 0]) = true := by
  decide

/-- Claim C2: every successful `printf` call produces exactly the
declarative concatenation — for each table entry in ascending position
order, the literal bytes from the source cursor up to the entry's
position, then the kind-specific rendering of the positional argument
with the cursor advanced by the entry's encoded size, and after the last
entry all remaining literal bytes (terminator included). -/
theorem c2_render_structure (s : List Char) (args : List Arg) (buf : List Char)
    (h : printf s args = some buf) :
    buf = renderDecl s ((specifierTable s).zip args) 0 :=
  printf_eq_renderDecl s args buf h

/-- Witness for C2 at the literal `"%d"` with argument `-555`. -/
theorem c2_render_structure_witness :
    printf ['%', 'd', Char.ofNat 0] [Arg.sint 4 (-555)] =
        some ['-', '5', '5', '5', Char.ofNat 0] ∧
      ['-', '5', '5', '5', Char.ofNat 0] =
        renderDecl ['%', 'd', Char.ofNat 0]
          ((specifierTable ['%', 'd', Char.ofNat 0]).zip [Arg.sint 4 (-555)]) 0 :=
  ⟨by decide, c2_render_structure _ _ _ (by decide)⟩

/-- Claim C3: a literal whose scan produced an `Unknown` entry (a
`%`-suffix matching none of `d,u,X,c,s,p,t,b`) rejects every formatting
call that binds arguments: no such call reaches the render path.  (The
zero-argument overload performs no validation by design and never renders.) -/
theorem c3_unknown_specifier_rejected (s : List Char) (args : List Arg)
    (e : SpecifierData) (he : e ∈ specifierTable s)
    (hu : e.specifier = Specifier.Unknown) (hne : args ≠ []) :
    printf s args = none := by
  cases hp : printf s args with
  | none => rfl
  | some buf =>
    exfalso
    cases args with
    | nil => exact hne rfl
    | cons a as =>
      obtain ⟨h1, _, h3, _⟩ := printf_cons_eq s a as buf hp
      have htab := specifierTable_eq_scanAux s (a :: as) h1 h3
      obtain ⟨m, hm, hme⟩ := List.mem_iff_getElem.mp he
      have hm2 : m < (a :: as).length := by omega
      have hzip : (e, (a :: as)[m]) ∈ (specifierTable s).zip (a :: as) := by
        rw [List.mem_iff_getElem]
        refine ⟨m, ?_, ?_⟩
        · rw [List.length_zip]
          simp only [lt_inf_iff]
          exact ⟨hm, hm2⟩
        · rw [List.getElem_zip]
          rw [hme]
      have hval := List.all_eq_true.mp h3 _ hzip
      rw [hu] at hval
      rw [valid_unknown] at hval
      simp at hval

/-- Witness for C3 at the literal `"%q"` with one argument. -/
theorem c3_unknown_specifier_rejected_witness :
    printf ['%', 'q', Char.ofNat 0] [Arg.uint 4 0] = none :=
  c3_unknown_specifier_rejected ['%', 'q', Char.ofNat 0] [Arg.uint 4 0]
    ⟨Specifier.Unknown, 0, 0, 2⟩ (by decide) (by decide) (by decide)

/-- Counterexample to claim C4: the Boolean specifier's compile-time
length contribution is not 5. -/
theorem c4_boolean_length_counterexample :
    ¬ specLength Specifier.Boolean (Arg.boolean true) = 5 := by decide

/-- Claim C4 as amended: the Boolean contribution summed into the buffer
capacity is `sizeof("FALSE") = 6` — the five characters of `"FALSE"` plus
its terminator — for every argument type. -/
theorem c4_boolean_length_amended (a : Arg) :
    specLength Specifier.Boolean a = (['F', 'A', 'L', 'S', 'E'] : List Char).length + 1 ∧
      bufferCapacity ['%', 'b', Char.ofNat 0] [a] =
        specLength Specifier.Boolean a + (['%', 'b', Char.ofNat 0] : List Char).length := by
  have h6 : specLength Specifier.Boolean a = 6 := by cases a <;> rfl
  have ht : specifierTable ['%', 'b', Char.ofNat 0] = [⟨Specifier.Boolean, 0, 0, 2⟩] := by
    decide
  constructor
  · rw [h6]
    rfl
  · simp [bufferCapacity, ht, h6]

/-- Claim C5: the `%X` routine for an unsigned type of `sizeof = b` always
emits exactly `2*b + 2` characters — the `0x` prefix and one character per
nibble, most significant first, leading zeroes included — only the low
`8*b` bits of the value matter (type-width truncation), and the 8-bit zero
renders as `"0x00"`. -/
theorem c5_hex_fixed_width (b v : Nat) :
    (formatHex b v).length = 2 * b + 2 ∧
      (formatHex b v).take 2 = ['0', 'x'] ∧
      formatHex b v = formatHex b (v % 2 ^ (8 * b)) ∧
      (∀ k, k < 2 * b →
        (formatHex b v).getD (2 + k) (Char.ofNat 0) =
          hexChar (v / 16 ^ (2 * b - 1 - k) % 16)) ∧
      formatHex 1 0 = ['0', 'x', '0', '0'] :=
  ⟨formatHex_length b v, rfl, formatHex_trunc b v,
   fun k hk => formatHex_digit b v k hk, by decide⟩

/-- Witness for C5 at `sizeof = 2` and value `0x1234`. -/
theorem c5_hex_fixed_width_witness :
    (formatHex 2 4660).getD (2 + 0) (Char.ofNat 0) =
        hexChar (4660 / 16 ^ (2 * 2 - 1 - 0) % 16) ∧
      (formatHex 2 4660).length = 2 * 2 + 2 :=
  ⟨(c5_hex_fixed_width 2 4660).2.2.2.1 0 (by decide), (c5_hex_fixed_width 2 4660).1⟩

/-- Claim C6: decimal round trips — `"%d"` with `-555` yields `"-555"`,
`"%04u"` with `98765` yields `"98765"`, `"%06u"` with `7` yields
`"000007"` — and in general the unsigned routine prepends exactly the
zeroes missing up to the width and otherwise leaves the natural digits
unchanged. -/
theorem c6_decimal_round_trip :
    formatArg Specifier.SignedDecimalInteger (Arg.sint 4 (-555)) 0 = ['-', '5', '5', '5'] ∧
      formatArg Specifier.UnsignedDecimalInteger (Arg.uint 4 98765) 4 =
        ['9', '8', '7', '6', '5'] ∧
      formatArg Specifier.UnsignedDecimalInteger (Arg.uint 4 7) 6 =
        ['0', '0', '0', '0', '0', '7'] ∧
      ∀ v w : Nat,
        formatU v w = List.replicate (w - (formatU v 0).length) '0' ++ formatU v 0 :=
  ⟨by decide, by decide, by decide, fun v w => formatU_pad v w⟩

/-- Claim C7: the `%t` routine emits the unpadded decimal of `v / 1000`,
a dot, then `v % 1000` zero-padded to exactly three digits; `1500`
renders `"1.500"` and `59` renders `"0.059"`. -/
theorem c7_time_rendering (b v : Nat) :
    formatArg Specifier.Time (Arg.uint b v) 0 =
        formatU (v / 1000) 0 ++ '.' :: formatU (v % 1000) 3 ∧
      (formatU (v % 1000) 3).length = 3 ∧
      formatArg Specifier.Time (Arg.uint 4 1500) 0 = ['1', '.', '5', '0', '0'] ∧
      formatArg Specifier.Time (Arg.uint 4 59) 0 = ['0', '.', '0', '5', '9'] := by
  refine ⟨rfl, ?_, by decide, by decide⟩
  rw [formatU_length]
  have h1000 : v % 1000 < 10 ^ 3 := by
    have := Nat.mod_lt v (show 0 < 1000 from by norm_num)
    omega
  have := digitsRev_length_le 3 (by norm_num) (v % 1000) h1000
  have hne := digitsRev_ne_nil (v % 1000)
  have hpos : 0 < (digitsRev (v % 1000)).length := List.length_pos.mpr hne
  omega

/-- Claim C8: at every `'%'` the scanner reaches, it records width equal
to the decimal value of the digit run (a leading zero adds no magnitude)
and encoded size equal to the byte count from the `'%'` through the kind
character inclusive (digit run length plus two), resuming after the kind
character. -/
theorem c8_scanner_width_size (s : List Char) (i : Nat) (h : i < s.length)
    (hp : s[i] = '%') :
    scanAux s i =
      ⟨lookupSpecifier
          (s.getD (i + 1 + ((s.drop (i + 1)).takeWhile IsDigit).length) (Char.ofNat 0)),
        ((s.drop (i + 1)).takeWhile IsDigit).foldl (fun a c => 10 * a + (c.toNat - 48)) 0,
        i,
        ((s.drop (i + 1)).takeWhile IsDigit).length + 2⟩
        :: scanAux s (i + 1 + ((s.drop (i + 1)).takeWhile IsDigit).length + 1) := by
  have heq := scanAux_pct s i h hp
  rw [scanWidth_eq] at heq
  simp only at heq
  rw [heq]
  simp only [List.cons.injEq, SpecifierData.mk.injEq]
  refine ⟨⟨trivial, trivial, trivial, by omega⟩, trivial⟩

/-- Witness for C8 at the literal `"%04u"`: width 4 (not 0) and encoded
size 4. -/
theorem c8_scanner_width_size_witness :
    scanAux ['%', '0', '4', 'u', Char.ofNat 0] 0 =
      ⟨Specifier.UnsignedDecimalInteger, 4, 0, 4⟩
        :: scanAux ['%', '0', '4', 'u', Char.ofNat 0] 4 := by
  have hc := c8_scanner_width_size ['%', '0', '4', 'u', Char.ofNat 0] 0 (by decide) (by decide)
  rw [hc]
  decide

/-- Claim C9: the buffer-dump overload with a null data pointer returns
zero bytes written and never invokes the sink, whatever the literal, the
recorded length and the remaining arguments. -/
theorem c9_null_dump_noop (s : List Char) (db : DataBuffer) (args : List Arg)
    (buf : List Char) (h : printf s args = some buf) (hnull : db.data = none) :
    printfDump s db args = some (0, []) := by
  simp [printfDump, h, hnull]

/-- Witness for C9. -/
theorem c9_null_dump_noop_witness :
    printfDump ['a', Char.ofNat 0] ⟨none, 5⟩ [] = some (0, []) :=
  c9_null_dump_noop ['a', Char.ofNat 0] ⟨none, 5⟩ [] ['a', Char.ofNat 0] rfl rfl

/-- Claim C10: the returned byte count includes the literal's trailing
terminator — the zero-argument overload returns the whole literal array,
and the argument overload copies the terminator into the buffer as its
last byte, counting it in the total. -/
theorem c10_terminator_counted (s : List Char) (args : List Arg) (buf : List Char)
    (hnul : s.getLast? = some (Char.ofNat 0)) (h : printf s args = some buf) :
    (args = [] → buf = s) ∧ buf.getLast? = some (Char.ofNat 0) := by
  cases args with
  | nil =>
    have hbuf : s = buf := by simpa [printf] using h
    exact ⟨fun _ => hbuf.symm, by rw [← hbuf]; exact hnul⟩
  | cons a as =>
    refine ⟨fun hcon => by simp at hcon, ?_⟩
    have hrd := printf_eq_renderDecl s (a :: as) buf h
    obtain ⟨h1, _, h3, _⟩ := printf_cons_eq s a as buf h
    have htab := specifierTable_eq_scanAux s (a :: as) h1 h3
    have hslen : 0 < s.length := by
      cases hsval : s with
      | nil =>
        rw [hsval] at hnul
        simp at hnul
      | cons c cs => simp
    have hlen1 : s.length - 1 < s.length := by omega
    have hlast : s[s.length - 1] = Char.ofNat 0 := by
      rw [List.getLast?_eq_getElem?, List.getElem?_eq_getElem hlen1] at hnul
      exact Option.some_inj.mp hnul
    have hall : ∀ p ∈ (specifierTable s).zip (a :: as),
        p.1.position + p.1.size < s.length := by
      intro p hpmem
      obtain ⟨d, a2⟩ := p
      show d.position + d.size < s.length
      have hvp : valid d.specifier a2 = true := List.all_eq_true.mp h3 (d, a2) hpmem
      have hmem1 : d ∈ specifierTable s := (List.of_mem_zip hpmem).1
      rw [htab.1] at hmem1
      obtain ⟨_, hpos, hsz, hspec⟩ := (scanAux_facts s 0).2.2 d hmem1
      have hnotu : d.specifier ≠ Specifier.Unknown := by
        intro hcon
        rw [hcon, valid_unknown] at hvp
        simp at hvp
      by_cases hidx : d.position + d.size - 1 < s.length
      · have hgd : s.getD (d.position + d.size - 1) (Char.ofNat 0) =
            s[d.position + d.size - 1] := List.getD_eq_getElem s _ hidx
        have hne2 : d.position + d.size - 1 ≠ s.length - 1 := by
          intro hcon
          apply hnotu
          rw [hspec, hgd]
          have hsval : s[d.position + d.size - 1] = s[s.length - 1] := by
            congr 1
          rw [hsval, hlast]
          decide
        omega
      · exfalso
        have hgd : s.getD (d.position + d.size - 1) (Char.ofNat 0) = Char.ofNat 0 :=
          List.getD_eq_default s _ (by omega)
        rw [hgd] at hspec
        apply hnotu
        rw [hspec]
        decide
    rw [hrd, renderDecl_getLast s _ 0 hslen hall]
    exact hnul

/-- Witness for C10: the literal `"%c"` with argument `'Z'` renders
`['Z', '\0']`, whose last byte is the copied terminator. -/
theorem c10_terminator_counted_witness :
    (([Arg.chr 'Z'] : List Arg) = [] →
        (['Z', Char.ofNat 0] : List Char) = ['%', 'c', Char.ofNat 0]) ∧
      (['Z', Char.ofNat 0] : List Char).getLast? = some (Char.ofNat 0) :=
  c10_terminator_counted ['%', 'c', Char.ofNat 0] [Arg.chr 'Z'] ['Z', Char.ofNat 0]
    (by decide) (by decide)

end iso.format
